import Mathlib

/-!
Shallow embedding of the `cardsim` Klondike solitaire engine
(`src/cards/french.rs` and `src/games/solitaire/klondike.rs`) together with
proofs of the specification's claims about it.

Rust `Vec<Card>` becomes `List Card`; in-place mutation becomes explicit
state passing (a method that mutates and returns a value becomes a function
returning a pair); `Result<T, KlondikeErr>` becomes `Except KlondikeErr T`.
Indices are `Nat`.
-/

namespace Cardsim

/-! ## Cards (`src/cards/french.rs`) -/

inductive Color where
  | red
  | black
deriving DecidableEq, Repr

/-- Modelled from the spec: `Color::other` is used by `klondike.rs` but its
definition is not under `src/` (the checked-in `cards` module lacks it).
Spec §4.2: the required color for a push is the "(opposite-color-of-top)";
§3: piles strictly alternate color.  So `other` returns the opposite color. -/
def Color.other : Color → Color
  | .red => .black
  | .black => .red

inductive Suit where
  | diamonds
  | hearts
  | clubs
  | spades
deriving DecidableEq, Repr, Fintype

def Suit.color : Suit → Color
  | .diamonds | .hearts => .red
  | .clubs | .spades => .black

inductive Rank where
  | ace
  | number (n : Int)
  | jack
  | queen
  | king
deriving DecidableEq, Repr

/-- `FrenchPlayingCard::new` rejects `Number(n)` outside `2..=10`; since the
struct fields are private, every Rust `FrenchPlayingCard` value satisfies
this predicate. -/
def Rank.isStandard : Rank → Bool
  | .number n => decide (2 ≤ n) && decide (n ≤ 10)
  | _ => true

/-- A card is a suit and a rank; the validity field records the invariant
enforced by the private constructor `FrenchPlayingCard::new`. -/
structure FrenchPlayingCard where
  suit : Suit
  rank : Rank
  valid : rank.isStandard = true

instance : DecidableEq FrenchPlayingCard := fun a b =>
  if h : a.suit = b.suit ∧ a.rank = b.rank then
    isTrue (by
      obtain ⟨s1, r1, h1⟩ := a
      obtain ⟨s2, r2, h2⟩ := b
      obtain ⟨hs, hr⟩ := h
      cases hs
      cases hr
      rfl)
  else
    isFalse (fun he => by cases he; exact h ⟨rfl, rfl⟩)

/-- `pub type Card = french::FrenchPlayingCard` in `klondike.rs`. -/
abbrev Card := FrenchPlayingCard

def Card.color (c : Card) : Color := c.suit.color

/-! ## Rank indexing (`RANKS` and `rank_index` in `klondike.rs`) -/

def RANKS : List Rank :=
  [.ace, .number 2, .number 3, .number 4, .number 5, .number 6, .number 7,
   .number 8, .number 9, .number 10, .jack, .queen, .king]

/-- `Iterator::position`: index of the first element satisfying `p`. -/
def position (p : α → Bool) : List α → Option Nat
  | [] => none
  | a :: as => if p a then some 0 else (position p as).map (· + 1)

/-- `rank_index` scans `RANKS` and returns the first matching index, erring
(`none`) on a non-standard rank. -/
def rank_index (r : Rank) : Option Nat :=
  position (fun x => x == r) RANKS

def rank_index_isSome {r : Rank} (h : r.isStandard = true) :
    (rank_index r).isSome := by
  cases r with
  | ace => decide
  | jack => decide
  | queen => decide
  | king => decide
  | number n =>
    simp only [Rank.isStandard, Bool.and_eq_true, decide_eq_true_eq] at h
    obtain ⟨h2, h10⟩ := h
    interval_cases n <;> decide

/-- The rank index of a card: `rank_index(card.rank()).unwrap()`, total
because every `Card` carries the standard-rank invariant. -/
def Card.rankIdx (c : Card) : Nat :=
  (rank_index c.rank).get (rank_index_isSome c.valid)

def RANKS_getD_isStandard (i : Nat) : (RANKS.getD i Rank.ace).isStandard = true := by
  rcases Nat.lt_or_ge i 13 with h | h
  · interval_cases i <;> decide
  · rw [List.getD_eq_default]
    · decide
    · simpa [RANKS] using h

/-- `Card::new(suit, RANKS[i])` (with the `getD` default never reached for
the indices the code produces, all of which are `< 13`). -/
def rankCard (s : Suit) (i : Nat) : Card :=
  ⟨s, RANKS.getD i .ace, RANKS_getD_isStandard i⟩

/-- `new_standard_deck`: iterates suits in `standard_iter` order and, per
suit, the thirteen standard ranks (`RANKS`, built via `rankCard`). -/
def new_standard_deck : List Card :=
  [Suit.diamonds, Suit.hearts, Suit.clubs, Suit.spades].flatMap
    (fun s => (List.range 13).map (rankCard s))

/-! ## Error type (`KlondikeErr`) -/

inductive KlondikeErr where
  | capacity
  | invalidCard
  | invalidRank
  | invalidSuit
  | invalidColor
  | invalidMove
deriving DecidableEq, Repr

/-! ## Pile (`klondike.rs`, tableau pile) -/

structure Pile where
  visible_cards : List Card
  hidden_cards : List Card
deriving DecidableEq

def Pile.new : Pile := ⟨[], []⟩

/-- `Pile::from(hidden, visible)` merely stores the two regions; its
validation is modelled by hypotheses on the theorems that use it. -/
def Pile.fromParts (hidden visible : List Card) : Pile :=
  ⟨visible, hidden⟩

def Pile.top (p : Pile) : Option Card :=
  p.visible_cards.getLast?

def Pile.length (p : Pile) : Nat :=
  p.visible_cards.length + p.hidden_cards.length

def Pile.is_empty (p : Pile) : Bool :=
  p.visible_cards.isEmpty

/-- `Pile::reset(cards)`: all but the last card become hidden, the last
card becomes the sole visible card. -/
def Pile.reset (cards : List Card) : Pile :=
  { hidden_cards := cards.dropLast,
    visible_cards :=
      match cards.getLast? with
      | some c => [c]
      | none => [] }

/-- `Pile::next_card`: required `(color, rank)` of the next pushable card;
`none` when the top card is an Ace (rank index 0). -/
def Pile.next_card (p : Pile) : Option (Option Color × Rank) :=
  match p.visible_cards.getLast? with
  | some card =>
    match card.rankIdx with
    | 0 => none
    | i + 1 => some (some card.color.other, RANKS.getD i .ace)
  | none => some (none, .king)

def Pile.can_push (p : Pile) (card : Card) : Except KlondikeErr Unit :=
  match p.next_card with
  | some (some color, rank) =>
    if card.color == color && card.rank == rank then .ok () else .error .invalidCard
  | some (none, rank) =>
    if card.rank == rank then .ok () else .error .invalidCard
  | none => .error .capacity

/-- `Pile::push`: `let result = self.can_push(card); if result.is_ok() { ...push... }; result`. -/
def Pile.push (p : Pile) (card : Card) : Except KlondikeErr Unit × Pile :=
  let result := p.can_push card
  (result,
   if result.isOk then { p with visible_cards := p.visible_cards ++ [card] } else p)

/-- `Pile::check_visible`: when the visible region empties and hidden cards
remain, reveal (move up) the top hidden card. -/
def Pile.check_visible (p : Pile) : Pile :=
  if p.visible_cards.isEmpty then
    match p.hidden_cards.getLast? with
    | some next_card => ⟨[next_card], p.hidden_cards.dropLast⟩
    | none => p
  else p

def Pile.pop (p : Pile) : Option Card × Pile :=
  match p.visible_cards.getLast? with
  | some card =>
    (some card, Pile.check_visible ⟨p.visible_cards.dropLast, p.hidden_cards⟩)
  | none => (none, p)

/-- `Pile::move_to(target)`: position of the first visible card the target
accepts; that suffix moves wholesale onto the target's visible region, and
the source then reveals a hidden card if its visible region emptied. -/
def Pile.move_to (p target : Pile) : Except KlondikeErr Unit × Pile × Pile :=
  match position (fun c => (target.can_push c).isOk) p.visible_cards with
  | none => (.error .invalidMove, p, target)
  | some index =>
    (.ok (),
     Pile.check_visible ⟨p.visible_cards.take index, p.hidden_cards⟩,
     { target with
       visible_cards := target.visible_cards ++ p.visible_cards.drop index })

/-! ## Deck (`klondike.rs`, stock/waste with a sliding visible window) -/

def MAX_DECK_SIZE : Nat := 24

structure Deck where
  cards : List Card
  draw_count : Nat
  visible_index : Nat
  visible_count : Nat
deriving DecidableEq

def Deck.new (draw_count : Nat) : Deck :=
  ⟨[], draw_count, 0, 0⟩

/-- `Deck::from(draw_count, waste, visible, remaining)`; its assertions are
modelled by hypotheses on the theorems that use it. -/
def Deck.fromParts (draw_count : Nat) (waste visible remaining : List Card) : Deck :=
  ⟨waste ++ visible ++ remaining, draw_count, waste.length, visible.length⟩

def Deck.reset (d : Deck) (cards : List Card) : Deck :=
  { d with cards := cards, visible_index := 0, visible_count := 0 }

def Deck.is_empty (d : Deck) : Bool :=
  d.cards.isEmpty

def Deck.len (d : Deck) : Nat :=
  d.cards.length

def Deck.top (d : Deck) : Option Card :=
  if d.visible_count = 0 then none
  else d.cards[d.visible_index + d.visible_count - 1]?

def Deck.visible_cards (d : Deck) : List Card :=
  (d.cards.drop d.visible_index).take d.visible_count

def Deck.waste_cards (d : Deck) : List Card :=
  d.cards.take d.visible_index

def Deck.remaining_cards (d : Deck) : List Card :=
  d.cards.drop (min (d.visible_index + d.visible_count) d.cards.length)

/-- `Deck::pop`: decrement the window size and remove (`Vec::remove`) the
top visible card from the backing sequence. -/
def Deck.pop (d : Deck) : Option Card × Deck :=
  if d.visible_count = 0 then (none, d)
  else
    (d.cards[d.visible_index + d.visible_count - 1]?,
     { d with visible_count := d.visible_count - 1,
              cards := d.cards.eraseIdx (d.visible_index + d.visible_count - 1) })

/-- `Deck::draw`: slide the window forward; wrap to an empty window at the
start once the new window start passes the end of the sequence. -/
def Deck.draw (d : Deck) : Deck :=
  let vi := d.visible_index + d.visible_count
  if vi ≥ d.cards.length then
    { d with visible_index := 0, visible_count := 0 }
  else
    { d with visible_index := vi,
             visible_count := min d.draw_count (d.cards.length - vi) }

/-! ## Foundation (`klondike.rs`, a suit-fixed rank cursor) -/

structure Foundation where
  suit : Suit
  current_rank_index : Option Nat
deriving DecidableEq

def Foundation.new (suit : Suit) : Foundation :=
  ⟨suit, none⟩

def Foundation.top (f : Foundation) : Option Card :=
  match f.current_rank_index with
  | some i => some (rankCard f.suit i)
  | none => none

/-- `Foundation::cards()`: materializes `{Ace..current}` for the suit. -/
def Foundation.cards (f : Foundation) : List Card :=
  match f.current_rank_index with
  | some ri => (List.range (ri + 1)).map (rankCard f.suit)
  | none => []

def Foundation.is_full (f : Foundation) : Bool :=
  f.current_rank_index == some (RANKS.length - 1)

def Foundation.is_empty (f : Foundation) : Bool :=
  f.current_rank_index.isNone

def Foundation.next_rank (f : Foundation) : Option Rank :=
  match f.current_rank_index with
  | some i => if i = RANKS.length - 1 then none else some (RANKS.getD (i + 1) .ace)
  | none => some (RANKS.getD 0 .ace)

/-- `Foundation::next_card`: `next_rank` paired with the suit through
`Card::new` (rendered with `rankCard`, which carries the validity proof). -/
def Foundation.next_card (f : Foundation) : Option Card :=
  match f.current_rank_index with
  | some i => if i = RANKS.length - 1 then none else some (rankCard f.suit (i + 1))
  | none => some (rankCard f.suit 0)

/-- `Foundation::push`: advance the cursor unless full.  Note the returned
card: `Some(i)` advances to `i+1` yet returns `RANKS[i]`, while `None`
advances to `0` and returns `RANKS[0]`. -/
def Foundation.push (f : Foundation) : Option Card × Foundation :=
  match f.current_rank_index with
  | some i =>
    if i = RANKS.length - 1 then (none, f)
    else (some (rankCard f.suit i), { f with current_rank_index := some (i + 1) })
  | none => (some (rankCard f.suit 0), { f with current_rank_index := some 0 })

def Foundation.clear (f : Foundation) : Foundation :=
  { f with current_rank_index := none }

def Foundation.pop (f : Foundation) : Option Card × Foundation :=
  match f.current_rank_index with
  | some 0 => (some (rankCard f.suit 0), { f with current_rank_index := none })
  | some (i + 1) => (some (rankCard f.suit i), { f with current_rank_index := some i })
  | none => (none, f)

/-! ## Game (`KlondikeSolitaireGame`) -/

inductive MoveSource where
  | deck
  | foundation (suit : Suit)
  | pile (index : Fin 7)

inductive MoveTarget where
  | foundation
  | pile (index : Fin 7)

/-- The Rust `foundations: [Foundation; 4]` array is only ever addressed
through `foundation_index : Suit → usize` (a bijection onto `0..4`), so it
is modelled as a function `Suit → Foundation`.  `piles: [Pile; 7]` becomes
`Fin 7 → Pile`; the Rust `u8` pile indices are asserted `< NUM_PILES`, which
`Fin 7` models (the claims only concern in-range indices). -/
structure KlondikeSolitaireGame where
  cards : List Card
  foundations : Suit → Foundation
  piles : Fin 7 → Pile
  deck : Deck

/-- The order of foundation suits in the Rust array
(`foundation_index` : Hearts, Diamonds, Spades, Clubs). -/
def FOUNDATION_SUITS : List Suit :=
  [.hearts, .diamonds, .spades, .clubs]

/-- `cards[i..j]` on a `Vec`. -/
def slice (l : List Card) (i j : Nat) : List Card :=
  (l.drop i).take (j - i)

/-- `KlondikeSolitaireGame::reset`: clear the foundations, deal the
escalating pile slices `[0..1], [1..3], ..., [21..28]`, hand `[28..]` to
the deck. -/
def KlondikeSolitaireGame.reset (g : KlondikeSolitaireGame) : KlondikeSolitaireGame :=
  { g with
    foundations := fun s => (g.foundations s).clear,
    piles := fun i =>
      match i.val with
      | 0 => Pile.reset (slice g.cards 0 1)
      | 1 => Pile.reset (slice g.cards 1 3)
      | 2 => Pile.reset (slice g.cards 3 6)
      | 3 => Pile.reset (slice g.cards 6 10)
      | 4 => Pile.reset (slice g.cards 10 15)
      | 5 => Pile.reset (slice g.cards 15 21)
      | _ => Pile.reset (slice g.cards 21 28),
    deck := g.deck.reset (g.cards.drop 28) }

/-- `KlondikeSolitaireGame::new_shuffle`: shuffle a standard deck, then
deal via `reset`.  The shuffle function is injected; the spec (§6) only
requires it to permute its input. -/
def KlondikeSolitaireGame.new_shuffle (draw_count : Nat)
    (shuffle : List Card → List Card) : KlondikeSolitaireGame :=
  KlondikeSolitaireGame.reset
    { cards := shuffle new_standard_deck,
      foundations := fun s => Foundation.new s,
      piles := fun _ => Pile.new,
      deck := Deck.new draw_count }

/-- `KlondikeSolitaireGame::is_clear`: all four foundations are full.  (The
accompanying `debug_assert!`s — piles and deck empty — are the subject of
claim C7.) -/
def KlondikeSolitaireGame.is_clear (g : KlondikeSolitaireGame) : Bool :=
  FOUNDATION_SUITS.all fun s => (g.foundations s).is_full

def KlondikeSolitaireGame.draw (g : KlondikeSolitaireGame) : KlondikeSolitaireGame :=
  { g with deck := g.deck.draw }

/-- `KlondikeSolitaireGame::move_cards(source, target)`, arm by arm. -/
def KlondikeSolitaireGame.move_cards (g : KlondikeSolitaireGame)
    (source : MoveSource) (target : MoveTarget) :
    Except KlondikeErr Unit × KlondikeSolitaireGame :=
  match source, target with
  | .deck, .foundation =>
    match g.deck.top with
    | none => (.error .invalidMove, g)
    | some visible_card =>
      let foundation := g.foundations visible_card.suit
      if foundation.next_card ≠ some visible_card then
        (.error .invalidMove, g)
      else
        (.ok (),
         { g with
           foundations := Function.update g.foundations visible_card.suit
             (foundation.push).2,
           deck := (g.deck.pop).2 })
  | .deck, .pile pile_index =>
    match g.deck.top with
    | none => (.error .invalidMove, g)
    | some visible_card =>
      match (g.piles pile_index).push visible_card with
      | (.ok _, p) =>
        (.ok (),
         { g with
           piles := Function.update g.piles pile_index p,
           deck := (g.deck.pop).2 })
      | (.error _, _) => (.error .invalidMove, g)
  | .foundation _, .foundation =>
    (.ok (), g)
  | .foundation suit, .pile pile_index =>
    match (g.foundations suit).top with
    | none => (.error .invalidMove, g)
    | some visible_card =>
      match (g.piles pile_index).push visible_card with
      | (.ok _, p) =>
        (.ok (),
         { g with
           piles := Function.update g.piles pile_index p,
           foundations := Function.update g.foundations suit
             ((g.foundations suit).pop).2 })
      | (.error _, _) => (.error .invalidMove, g)
  | .pile source_pile_index, .pile target_pile_index =>
    if source_pile_index = target_pile_index then
      (.ok (), g)
    else
      match (g.piles source_pile_index).move_to (g.piles target_pile_index) with
      | (r, s, t) =>
        (r,
         { g with
           piles := Function.update
             (Function.update g.piles source_pile_index s) target_pile_index t })
  | .pile pile_index, .foundation =>
    match (g.piles pile_index).top with
    | none => (.error .invalidMove, g)
    | some visible_card =>
      let foundation := g.foundations visible_card.suit
      if foundation.next_card ≠ some visible_card then
        (.error .invalidMove, g)
      else
        (.ok (),
         { g with
           foundations := Function.update g.foundations visible_card.suit
             (foundation.push).2,
           piles := Function.update g.piles pile_index
             ((g.piles pile_index).pop).2 })

/-! ## Invariant-level definitions: card multisets, validity predicates,
reachable-state relations -/

def pileM (p : Pile) : Multiset Card :=
  ↑p.hidden_cards + ↑p.visible_cards

def Foundation.cardsM (f : Foundation) : Multiset Card :=
  ↑f.cards

def deckM (d : Deck) : Multiset Card :=
  ↑d.waste_cards + ↑d.visible_cards + ↑d.remaining_cards

def KlondikeSolitaireGame.allCards (g : KlondikeSolitaireGame) : Multiset Card :=
  deckM g.deck + (∑ s : Suit, (g.foundations s).cardsM) + (∑ i : Fin 7, pileM (g.piles i))

/-- Game states produced by `new_shuffle` (the injected shuffle being a
permutation, per spec §6) followed by any sequence of `reset`, `draw` and
`move_cards` calls. -/
inductive Reachable : KlondikeSolitaireGame → Prop
  | new_shuffle (draw_count : Nat) (shuffle : List Card → List Card)
      (h : (shuffle new_standard_deck).Perm new_standard_deck) :
      Reachable (KlondikeSolitaireGame.new_shuffle draw_count shuffle)
  | reset {g} : Reachable g → Reachable g.reset
  | draw {g} : Reachable g → Reachable g.draw
  | move_cards {g} (src : MoveSource) (tgt : MoveTarget) :
      Reachable g → Reachable (g.move_cards src tgt).2

/-- `b` may legally sit on `a` in a tableau pile: opposite color, exactly
one rank lower. -/
def stacksOn (a b : Card) : Prop :=
  b.color = a.color.other ∧ b.rankIdx + 1 = a.rankIdx

/-- The spec's pile ordering invariant: the visible sequence read
bottom-to-top is strictly descending by one rank with alternating color. -/
def ValidPile (p : Pile) : Prop :=
  List.Chain' stacksOn p.visible_cards

/-- One step on a family of piles: a push, a pop, or a two-pile transfer
(between distinct indices, as `move_cards` guarantees). -/
inductive PileStep {n : Nat} : (Fin n → Pile) → (Fin n → Pile) → Prop
  | push (P : Fin n → Pile) (i : Fin n) (c : Card) :
      PileStep P (Function.update P i ((P i).push c).2)
  | pop (P : Fin n → Pile) (i : Fin n) :
      PileStep P (Function.update P i ((P i).pop).2)
  | move_to (P : Fin n → Pile) (i j : Fin n) (hij : i ≠ j) :
      PileStep P (Function.update (Function.update P i ((P i).move_to (P j)).2.1) j
        ((P i).move_to (P j)).2.2)

/-- Deck states produced by `new`/`from`/`reset`/`draw`/`pop`; the
hypotheses on `new`/`fromParts`/`reset` are the `assert!`s those Rust
constructors enforce. -/
inductive DeckReach : Deck → Prop
  | new (draw_count : Nat) (h1 : 0 < draw_count) (h2 : draw_count ≤ MAX_DECK_SIZE) :
      DeckReach (Deck.new draw_count)
  | fromParts (draw_count : Nat) (waste visible remaining : List Card)
      (h1 : 0 < draw_count) (h2 : draw_count ≤ MAX_DECK_SIZE)
      (h3 : visible.length ≤ draw_count)
      (h4 : waste.length + visible.length + remaining.length ≤ MAX_DECK_SIZE)
      (h5 : (waste ++ visible ++ remaining).Nodup) :
      DeckReach (Deck.fromParts draw_count waste visible remaining)
  | reset (d : Deck) (cards : List Card) (h : cards.length ≤ MAX_DECK_SIZE) :
      DeckReach d → DeckReach (d.reset cards)
  | draw (d : Deck) : DeckReach d → DeckReach d.draw
  | pop (d : Deck) : DeckReach d → DeckReach (d.pop).2

/-! ## Basic facts about `position` and rank indexing -/

theorem position_lt_length {p : α → Bool} {l : List α} {i : Nat}
    (h : position p l = some i) : i < l.length := by
  induction l generalizing i with
  | nil => simp [position] at h
  | cons a as ih =>
    simp only [position] at h
    by_cases hp : p a
    · simp [hp] at h
      simp
      omega
    · simp [hp] at h
      obtain ⟨j, hj, rfl⟩ := h
      have := ih hj
      simp
      omega

theorem position_spec {p : α → Bool} {l : List α} {i : Nat}
    (h : position p l = some i) :
    ∃ hi : i < l.length, p (l.get ⟨i, hi⟩) = true ∧
      ∀ j (hj : j < i), p (l.get ⟨j, by have := position_lt_length h; omega⟩) = false := by
  induction l generalizing i with
  | nil => simp [position] at h
  | cons a as ih =>
    simp only [position] at h
    by_cases hp : p a
    · simp [hp] at h
      subst h
      exact ⟨by simp, by simpa using hp, by intro j hj; omega⟩
    · simp [hp] at h
      obtain ⟨j, hj, rfl⟩ := h
      obtain ⟨hjl, hpj, hmin⟩ := ih hj
      refine ⟨by simpa using Nat.succ_lt_succ hjl, by simpa using hpj, ?_⟩
      intro k hk
      match k with
      | 0 => simpa using Bool.of_not_eq_true hp
      | k + 1 => simpa using hmin k (by omega)

theorem position_eq_none {p : α → Bool} {l : List α}
    (h : position p l = none) : ∀ a ∈ l, p a = false := by
  induction l with
  | nil => simp
  | cons a as ih =>
    simp only [position] at h
    by_cases hp : p a
    · simp [hp] at h
    · simp [hp] at h
      intro x hx
      rcases List.mem_cons.mp hx with hx | hx
      · subst hx; exact Bool.of_not_eq_true hp
      · exact ih h x hx

theorem rank_index_card (c : Card) : rank_index c.rank = some c.rankIdx :=
  (Option.some_get (rank_index_isSome c.valid)).symm

theorem rankIdx_lt (c : Card) : c.rankIdx < 13 := by
  have h := position_lt_length (rank_index_card c)
  simpa [RANKS] using h

theorem rank_index_RANKS_getD : ∀ i < 13, rank_index (RANKS.getD i .ace) = some i := by
  decide

theorem rankCard_rankIdx {i : Nat} (h : i < 13) (s : Suit) :
    (rankCard s i).rankIdx = i := by
  have := rank_index_card (rankCard s i)
  rw [show (rankCard s i).rank = RANKS.getD i .ace from rfl,
    rank_index_RANKS_getD i h] at this
  exact (Option.some_inj.mp this).symm

/-! ## Multiset bookkeeping for card conservation -/

/-- The three deck regions always reassemble the backing sequence. -/
theorem deck_partition (d : Deck) :
    d.waste_cards ++ d.visible_cards ++ d.remaining_cards = d.cards := by
  unfold Deck.waste_cards Deck.visible_cards Deck.remaining_cards
  rw [← List.take_add]
  rcases le_or_lt (d.visible_index + d.visible_count) d.cards.length with h | h
  · rw [Nat.min_eq_left h, List.take_append_drop]
  · rw [Nat.min_eq_right (Nat.le_of_lt h), List.take_of_length_le (Nat.le_of_lt h),
      List.drop_length, List.append_nil]

theorem deckM_eq (d : Deck) : deckM d = ↑d.cards := by
  unfold deckM
  rw [Multiset.coe_add, Multiset.coe_add, deck_partition]

theorem coe_append_singleton {α : Type _} (l : List α) (c : α) :
    (↑(l ++ [c]) : Multiset α) = ↑l + {c} := by
  rw [← Multiset.coe_add, Multiset.coe_singleton]

/-- The multiset of every card anywhere in a game: all three deck regions,
the four expanded foundations, and the seven piles' hidden and visible
regions. -/
theorem sum_update_add {ι M : Type _} [Fintype ι] [DecidableEq ι] [AddCommMonoid M]
    (f : ι → M) (i : ι) (b : M) :
    (∑ k, Function.update f i b k) + f i = (∑ k, f k) + b := by
  rw [Finset.sum_update_of_mem (Finset.mem_univ i), Finset.sdiff_singleton_eq_erase,
    ← Finset.add_sum_erase _ f (Finset.mem_univ i)]
  abel

theorem sum_update_apply {ι A M : Type _} [Fintype ι] [DecidableEq ι] [AddCommMonoid M]
    (g : A → M) (P : ι → A) (i : ι) (x : A) :
    (∑ k, g (Function.update P i x k)) + g (P i) = (∑ k, g (P k)) + g x := by
  have h : (fun k => g (Function.update P i x k)) = Function.update (fun k => g (P k)) i (g x) := by
    funext k
    rcases eq_or_ne k i with rfl | hk
    · simp
    · simp [Function.update_noteq hk]
  have hs : (∑ k, g (Function.update P i x k)) = ∑ k, Function.update (fun k => g (P k)) i (g x) k :=
    Finset.sum_congr rfl (fun k _ => congrFun h k)
  rw [hs]
  exact sum_update_add (fun k => g (P k)) i (g x)

theorem perm_cons_eraseIdx {α : Type _} {l : List α} {i : Nat} {c : α}
    (h : l[i]? = some c) : l.Perm (c :: l.eraseIdx i) := by
  induction l generalizing i with
  | nil => simp at h
  | cons a as ih =>
    match i with
    | 0 =>
      simp at h
      subst h
      simp [List.eraseIdx]
    | i + 1 =>
      simp only [List.getElem?_cons_succ] at h
      have h2 := (ih h).cons a
      have h3 : (a :: c :: as.eraseIdx i).Perm (c :: a :: as.eraseIdx i) :=
        List.Perm.swap c a _
      exact h2.trans h3

/-- Removing the top visible card: the deck's backing multiset loses
exactly that card. -/
theorem deck_top_pop {d : Deck} {c : Card} (h : d.top = some c) :
    (↑d.cards : Multiset Card) = c ::ₘ ↑((d.pop).2).cards := by
  unfold Deck.top at h
  unfold Deck.pop
  by_cases hv : d.visible_count = 0
  · rw [if_pos hv] at h; simp at h
  · rw [if_neg hv] at h
    rw [if_neg hv]
    have hperm := perm_cons_eraseIdx h
    simpa [Multiset.cons_coe] using Multiset.coe_eq_coe.mpr hperm

theorem dropLast_append_of_getLast? {α : Type _} {l : List α} {c : α}
    (h : l.getLast? = some c) : l.dropLast ++ [c] = l := by
  have hne : l ≠ [] := by
    intro h0
    subst h0
    simp at h
  have h2 : l.getLast hne = c := by
    rw [List.getLast?_eq_getLast l hne] at h
    exact Option.some_inj.mp h
  rw [← h2]
  exact List.dropLast_concat_getLast hne

/-- Revealing a hidden card moves it between regions of the same pile. -/
theorem pileM_check_visible (p : Pile) : pileM p.check_visible = pileM p := by
  unfold Pile.check_visible pileM
  by_cases hv : p.visible_cards.isEmpty
  · rw [if_pos hv]
    match hh : p.hidden_cards.getLast? with
    | some x =>
      have hvnil : p.visible_cards = [] := List.isEmpty_iff.mp hv
      rw [hvnil]
      conv_rhs => rw [← dropLast_append_of_getLast? hh]
      rw [coe_append_singleton]
      simp
    | none => rfl
  · rw [if_neg hv]

theorem pileM_reset (cards : List Card) : pileM (Pile.reset cards) = ↑cards := by
  unfold Pile.reset pileM
  match h : cards.getLast? with
  | some c =>
    simp only
    rw [Multiset.coe_add, dropLast_append_of_getLast? h]
  | none =>
    have : cards = [] := List.getLast?_eq_none_iff.mp h
    subst this
    simp

theorem pileM_push {p : Pile} {c : Card} (h : (p.push c).1 = .ok ()) :
    pileM (p.push c).2 = pileM p + {c} := by
  have hok : (p.can_push c).isOk = true := by
    unfold Pile.push at h
    simp only at h
    rw [h]
    rfl
  unfold Pile.push pileM
  simp only [hok, if_pos]
  rw [coe_append_singleton]
  exact (add_assoc _ _ _).symm

theorem pileM_pop {p : Pile} {c : Card} (h : p.top = some c) :
    pileM p = pileM (p.pop).2 + {c} := by
  unfold Pile.top at h
  unfold Pile.pop
  rw [h]
  show pileM p = pileM (Pile.check_visible ⟨p.visible_cards.dropLast, p.hidden_cards⟩) + {c}
  rw [pileM_check_visible]
  show (↑p.hidden_cards + ↑p.visible_cards : Multiset Card)
    = ↑p.hidden_cards + ↑p.visible_cards.dropLast + {c}
  conv_lhs => rw [← dropLast_append_of_getLast? h]
  rw [coe_append_singleton]
  exact (add_assoc _ _ _).symm

theorem pileM_move_to (p t : Pile) :
    pileM ((p.move_to t).2.1) + pileM ((p.move_to t).2.2) = pileM p + pileM t := by
  unfold Pile.move_to
  match h : position (fun c => (t.can_push c).isOk) p.visible_cards with
  | none => simp
  | some idx =>
    simp only
    rw [pileM_check_visible]
    show (↑p.hidden_cards + ↑(p.visible_cards.take idx) : Multiset Card)
        + (↑t.hidden_cards + ↑(t.visible_cards ++ p.visible_cards.drop idx))
      = ↑p.hidden_cards + ↑p.visible_cards + (↑t.hidden_cards + ↑t.visible_cards)
    conv_rhs => rw [← List.take_append_drop idx p.visible_cards]
    rw [← Multiset.coe_add, ← Multiset.coe_add]
    abel

theorem cardsM_clear (f : Foundation) : (f.clear).cardsM = 0 := rfl

theorem range_map_snoc {A : Type _} (g : Nat → A) (n : Nat) :
    (↑((List.range (n + 1)).map g) : Multiset A) = ↑((List.range n).map g) + {g n} := by
  rw [List.range_succ, List.map_append]
  exact coe_append_singleton _ _

theorem cardsM_push {f : Foundation} {c : Card} (h : f.next_card = some c) :
    ((f.push).2).cardsM = f.cardsM + {c} := by
  obtain ⟨fs, fi⟩ := f
  match fi with
  | none =>
    simp only [Foundation.next_card, Option.some_inj] at h
    subst h
    show (↑((List.range 1).map (rankCard fs)) : Multiset Card) = ↑([] : List Card) + _
    rw [range_map_snoc]
    simp
  | some i =>
    by_cases h12 : i = RANKS.length - 1
    · simp [Foundation.next_card, h12] at h
    · simp only [Foundation.next_card, h12, if_false, Option.some_inj] at h
      subst h
      show ((Foundation.push ⟨fs, some i⟩).2).cardsM = _
      simp only [Foundation.push, h12, if_false]
      show (↑((List.range (i + 1 + 1)).map (rankCard fs)) : Multiset Card) = _
      rw [range_map_snoc]
      rfl

theorem cardsM_pop {f : Foundation} {c : Card} (h : f.top = some c) :
    f.cardsM = ((f.pop).2).cardsM + {c} := by
  obtain ⟨fs, fi⟩ := f
  match fi with
  | none => simp [Foundation.top] at h
  | some 0 =>
    simp only [Foundation.top, Option.some_inj] at h
    subst h
    show (↑((List.range 1).map (rankCard fs)) : Multiset Card) = ↑([] : List Card) + _
    rw [range_map_snoc]
    simp
  | some (j + 1) =>
    simp only [Foundation.top, Option.some_inj] at h
    subst h
    show (↑((List.range (j + 1 + 1)).map (rankCard fs)) : Multiset Card)
      = ↑((List.range (j + 1)).map (rankCard fs)) + _
    rw [range_map_snoc]

/-! ## The game operations conserve the card multiset -/

theorem take_append_slice (l : List Card) {a b : Nat} (hab : a ≤ b) :
    l.take a ++ slice l a b = l.take b := by
  unfold slice
  rw [← List.take_add, Nat.add_sub_cancel' hab]

theorem slices_eq_take (l : List Card) :
    slice l 0 1 ++ slice l 1 3 ++ slice l 3 6 ++ slice l 6 10 ++ slice l 10 15
      ++ slice l 15 21 ++ slice l 21 28 = l.take 28 := by
  have h0 : slice l 0 1 = l.take 1 := by
    unfold slice
    simp
  rw [h0,
    take_append_slice l (by norm_num : (1 : Nat) ≤ 3),
    take_append_slice l (by norm_num : (3 : Nat) ≤ 6),
    take_append_slice l (by norm_num : (6 : Nat) ≤ 10),
    take_append_slice l (by norm_num : (10 : Nat) ≤ 15),
    take_append_slice l (by norm_num : (15 : Nat) ≤ 21),
    take_append_slice l (by norm_num : (21 : Nat) ≤ 28)]

theorem allCards_reset (g : KlondikeSolitaireGame) :
    (g.reset).allCards = ↑g.cards := by
  have hp : (∑ i : Fin 7, pileM ((g.reset).piles i)) = ↑(g.cards.take 28) := by
    rw [Fin.sum_univ_seven]
    have e0 : (g.reset).piles 0 = Pile.reset (slice g.cards 0 1) := rfl
    have e1 : (g.reset).piles 1 = Pile.reset (slice g.cards 1 3) := rfl
    have e2 : (g.reset).piles 2 = Pile.reset (slice g.cards 3 6) := rfl
    have e3 : (g.reset).piles 3 = Pile.reset (slice g.cards 6 10) := rfl
    have e4 : (g.reset).piles 4 = Pile.reset (slice g.cards 10 15) := rfl
    have e5 : (g.reset).piles 5 = Pile.reset (slice g.cards 15 21) := rfl
    have e6 : (g.reset).piles 6 = Pile.reset (slice g.cards 21 28) := rfl
    rw [e0, e1, e2, e3, e4, e5, e6, pileM_reset, pileM_reset, pileM_reset,
      pileM_reset, pileM_reset, pileM_reset, pileM_reset]
    simp only [Multiset.coe_add]
    rw [slices_eq_take]
  have hf : (∑ s : Suit, ((g.reset).foundations s).cardsM) = 0 := by
    have : ∀ s : Suit, ((g.reset).foundations s).cardsM = 0 := fun s => rfl
    simp [this]
  unfold KlondikeSolitaireGame.allCards
  rw [hp, hf, deckM_eq]
  show (↑(g.cards.drop 28) : Multiset Card) + 0 + ↑(g.cards.take 28) = ↑g.cards
  conv_rhs => rw [← List.take_append_drop 28 g.cards]
  rw [← Multiset.coe_add]
  abel

theorem draw_cards_eq (d : Deck) : (d.draw).cards = d.cards := by
  unfold Deck.draw
  by_cases h : d.visible_index + d.visible_count ≥ d.cards.length
  · simp [h]
  · simp [h]

theorem allCards_draw (g : KlondikeSolitaireGame) :
    (g.draw).allCards = g.allCards := by
  unfold KlondikeSolitaireGame.allCards KlondikeSolitaireGame.draw
  rw [deckM_eq, deckM_eq]
  show (↑(g.deck.draw).cards : Multiset Card) + _ + _ = _
  rw [draw_cards_eq]

theorem move_cards_pool (g : KlondikeSolitaireGame) (src : MoveSource) (tgt : MoveTarget) :
    ((g.move_cards src tgt).2).cards = g.cards := by
  unfold KlondikeSolitaireGame.move_cards
  cases src <;> cases tgt <;> dsimp only <;>
    repeat first | rfl | split

theorem allCards_move (g : KlondikeSolitaireGame) (src : MoveSource) (tgt : MoveTarget) :
    ((g.move_cards src tgt).2).allCards = g.allCards := by
  rcases src with _ | suit | i
  · rcases tgt with _ | j
    · -- Deck → Foundation
      simp only [KlondikeSolitaireGame.move_cards]
      split
      · rfl
      · rename_i c htop
        split
        · rfl
        · rename_i hnc
          have hnc' : (g.foundations c.suit).next_card = some c := not_not.mp hnc
          have hF : (∑ s : Suit, Foundation.cardsM
                (Function.update g.foundations c.suit ((g.foundations c.suit).push).2 s))
              = (∑ s : Suit, Foundation.cardsM (g.foundations s)) + {c} := by
            have hsum := sum_update_apply Foundation.cardsM g.foundations c.suit
              ((g.foundations c.suit).push).2
            rw [cardsM_push hnc'] at hsum
            have h2 : (∑ s : Suit, Foundation.cardsM
                  (Function.update g.foundations c.suit ((g.foundations c.suit).push).2 s))
                + Foundation.cardsM (g.foundations c.suit)
                = ((∑ s : Suit, Foundation.cardsM (g.foundations s)) + {c})
                  + Foundation.cardsM (g.foundations c.suit) := by
              rw [hsum]
              abel
            exact add_right_cancel h2
          have hD : (↑g.deck.cards : Multiset Card) = {c} + ↑((g.deck.pop).2).cards := by
            rw [Multiset.singleton_add]
            exact deck_top_pop htop
          unfold KlondikeSolitaireGame.allCards
          rw [deckM_eq]
          try rw [deckM_eq]
          show (↑((g.deck.pop).2).cards : Multiset Card)
              + (∑ s : Suit, Foundation.cardsM
                  (Function.update g.foundations c.suit ((g.foundations c.suit).push).2 s))
              + (∑ k : Fin 7, pileM (g.piles k))
            = ↑g.deck.cards + (∑ s : Suit, Foundation.cardsM (g.foundations s))
              + (∑ k : Fin 7, pileM (g.piles k))
          rw [hF, hD]
          abel
    · -- Deck → Pile
      simp only [KlondikeSolitaireGame.move_cards]
      split
      · rfl
      · rename_i c htop
        rcases hpp : (g.piles j).push c with ⟨r, p⟩
        rcases r with e | u
        · rfl
        · -- push succeeded
          have hok : ((g.piles j).push c).1 = .ok () := by rw [hpp]
          have hpM : pileM p = pileM (g.piles j) + {c} := by
            have := pileM_push hok
            rw [hpp] at this
            exact this
          have hP : (∑ k : Fin 7, pileM (Function.update g.piles j p k))
              = (∑ k : Fin 7, pileM (g.piles k)) + {c} := by
            have hsum := sum_update_apply pileM g.piles j p
            rw [hpM] at hsum
            have h2 : (∑ k : Fin 7, pileM (Function.update g.piles j p k)) + pileM (g.piles j)
                = ((∑ k : Fin 7, pileM (g.piles k)) + {c}) + pileM (g.piles j) := by
              rw [hsum]
              abel
            exact add_right_cancel h2
          have hD : (↑g.deck.cards : Multiset Card) = {c} + ↑((g.deck.pop).2).cards := by
            rw [Multiset.singleton_add]
            exact deck_top_pop htop
          show KlondikeSolitaireGame.allCards
            { g with piles := Function.update g.piles j p, deck := (g.deck.pop).2 }
            = g.allCards
          unfold KlondikeSolitaireGame.allCards
          rw [deckM_eq]
          try rw [deckM_eq]
          show (↑((g.deck.pop).2).cards : Multiset Card)
              + (∑ s : Suit, Foundation.cardsM (g.foundations s))
              + (∑ k : Fin 7, pileM (Function.update g.piles j p k))
            = ↑g.deck.cards + (∑ s : Suit, Foundation.cardsM (g.foundations s))
              + (∑ k : Fin 7, pileM (g.piles k))
          rw [hP, hD]
          abel
  · rcases tgt with _ | j
    · -- Foundation → Foundation: no-op
      rfl
    · -- Foundation → Pile
      simp only [KlondikeSolitaireGame.move_cards]
      split
      · rfl
      · rename_i c htop
        rcases hpp : (g.piles j).push c with ⟨r, p⟩
        rcases r with e | u
        · rfl
        · have hok : ((g.piles j).push c).1 = .ok () := by rw [hpp]
          have hpM : pileM p = pileM (g.piles j) + {c} := by
            have := pileM_push hok
            rw [hpp] at this
            exact this
          have hP : (∑ k : Fin 7, pileM (Function.update g.piles j p k))
              = (∑ k : Fin 7, pileM (g.piles k)) + {c} := by
            have hsum := sum_update_apply pileM g.piles j p
            rw [hpM] at hsum
            have h2 : (∑ k : Fin 7, pileM (Function.update g.piles j p k)) + pileM (g.piles j)
                = ((∑ k : Fin 7, pileM (g.piles k)) + {c}) + pileM (g.piles j) := by
              rw [hsum]
              abel
            exact add_right_cancel h2
          have hF : (∑ s : Suit, Foundation.cardsM
                (Function.update g.foundations suit ((g.foundations suit).pop).2 s)) + {c}
              = ∑ s : Suit, Foundation.cardsM (g.foundations s) := by
            have hsum := sum_update_apply Foundation.cardsM g.foundations suit
              ((g.foundations suit).pop).2
            rw [cardsM_pop htop] at hsum
            have h2 : ((∑ s : Suit, Foundation.cardsM
                  (Function.update g.foundations suit ((g.foundations suit).pop).2 s)) + {c})
                + Foundation.cardsM ((g.foundations suit).pop).2
                = (∑ s : Suit, Foundation.cardsM (g.foundations s))
                + Foundation.cardsM ((g.foundations suit).pop).2 := by
              rw [← hsum]
              abel
            exact add_right_cancel h2
          show KlondikeSolitaireGame.allCards
            { g with piles := Function.update g.piles j p,
                     foundations := Function.update g.foundations suit
                       ((g.foundations suit).pop).2 }
            = g.allCards
          unfold KlondikeSolitaireGame.allCards
          rw [deckM_eq]
          try rw [deckM_eq]
          show (↑g.deck.cards : Multiset Card)
              + (∑ s : Suit, Foundation.cardsM
                  (Function.update g.foundations suit ((g.foundations suit).pop).2 s))
              + (∑ k : Fin 7, pileM (Function.update g.piles j p k))
            = ↑g.deck.cards + (∑ s : Suit, Foundation.cardsM (g.foundations s))
              + (∑ k : Fin 7, pileM (g.piles k))
          rw [hP, ← hF]
          abel
  · rcases tgt with _ | j
    · -- Pile → Foundation
      simp only [KlondikeSolitaireGame.move_cards]
      split
      · rfl
      · rename_i c htop
        split
        · rfl
        · rename_i hnc
          have hnc' : (g.foundations c.suit).next_card = some c := not_not.mp hnc
          have hF : (∑ s : Suit, Foundation.cardsM
                (Function.update g.foundations c.suit ((g.foundations c.suit).push).2 s))
              = (∑ s : Suit, Foundation.cardsM (g.foundations s)) + {c} := by
            have hsum := sum_update_apply Foundation.cardsM g.foundations c.suit
              ((g.foundations c.suit).push).2
            rw [cardsM_push hnc'] at hsum
            have h2 : (∑ s : Suit, Foundation.cardsM
                  (Function.update g.foundations c.suit ((g.foundations c.suit).push).2 s))
                + Foundation.cardsM (g.foundations c.suit)
                = ((∑ s : Suit, Foundation.cardsM (g.foundations s)) + {c})
                  + Foundation.cardsM (g.foundations c.suit) := by
              rw [hsum]
              abel
            exact add_right_cancel h2
          have hP : (∑ k : Fin 7, pileM (Function.update g.piles i ((g.piles i).pop).2 k)) + {c}
              = ∑ k : Fin 7, pileM (g.piles k) := by
            have hsum := sum_update_apply pileM g.piles i ((g.piles i).pop).2
            rw [pileM_pop htop] at hsum
            have h2 : ((∑ k : Fin 7, pileM (Function.update g.piles i ((g.piles i).pop).2 k)) + {c})
                + pileM ((g.piles i).pop).2
                = (∑ k : Fin 7, pileM (g.piles k)) + pileM ((g.piles i).pop).2 := by
              rw [← hsum]
              abel
            exact add_right_cancel h2
          unfold KlondikeSolitaireGame.allCards
          rw [deckM_eq]
          try rw [deckM_eq]
          show (↑g.deck.cards : Multiset Card)
              + (∑ s : Suit, Foundation.cardsM
                  (Function.update g.foundations c.suit ((g.foundations c.suit).push).2 s))
              + (∑ k : Fin 7, pileM (Function.update g.piles i ((g.piles i).pop).2 k))
            = ↑g.deck.cards + (∑ s : Suit, Foundation.cardsM (g.foundations s))
              + (∑ k : Fin 7, pileM (g.piles k))
          rw [hF, ← hP]
          abel
    · -- Pile → Pile
      simp only [KlondikeSolitaireGame.move_cards]
      split
      · rfl
      · rename_i hij
        rcases hm : (g.piles i).move_to (g.piles j) with ⟨r, s1, t1⟩
        have e3 : pileM s1 + pileM t1 = pileM (g.piles i) + pileM (g.piles j) := by
          have := pileM_move_to (g.piles i) (g.piles j)
          rw [hm] at this
          exact this
        have e2 := sum_update_apply pileM g.piles i s1
        have e1 := sum_update_apply pileM (Function.update g.piles i s1) j t1
        have hji : (Function.update g.piles i s1) j = g.piles j :=
          Function.update_noteq (Ne.symm hij) _ _
        rw [hji] at e1
        have h2 : (∑ k : Fin 7, pileM
              (Function.update (Function.update g.piles i s1) j t1 k))
            + (pileM (g.piles j) + pileM (g.piles i))
            = (∑ k : Fin 7, pileM (g.piles k)) + (pileM (g.piles j) + pileM (g.piles i)) := by
          calc (∑ k : Fin 7, pileM (Function.update (Function.update g.piles i s1) j t1 k))
              + (pileM (g.piles j) + pileM (g.piles i))
              = ((∑ k : Fin 7, pileM (Function.update (Function.update g.piles i s1) j t1 k))
                + pileM (g.piles j)) + pileM (g.piles i) := by abel
            _ = ((∑ k : Fin 7, pileM (Function.update g.piles i s1 k)) + pileM t1)
                + pileM (g.piles i) := by rw [e1]
            _ = ((∑ k : Fin 7, pileM (Function.update g.piles i s1 k)) + pileM (g.piles i))
                + pileM t1 := by abel
            _ = ((∑ k : Fin 7, pileM (g.piles k)) + pileM s1) + pileM t1 := by rw [e2]
            _ = (∑ k : Fin 7, pileM (g.piles k)) + (pileM s1 + pileM t1) := by abel
            _ = (∑ k : Fin 7, pileM (g.piles k)) + (pileM (g.piles i) + pileM (g.piles j)) := by
                rw [e3]
            _ = (∑ k : Fin 7, pileM (g.piles k)) + (pileM (g.piles j) + pileM (g.piles i)) := by
                abel
        have hPP := add_right_cancel h2
        show KlondikeSolitaireGame.allCards
          { g with piles := Function.update (Function.update g.piles i s1) j t1 }
          = g.allCards
        unfold KlondikeSolitaireGame.allCards
        show deckM g.deck + (∑ s : Suit, Foundation.cardsM (g.foundations s))
            + (∑ k : Fin 7, pileM (Function.update (Function.update g.piles i s1) j t1 k))
          = deckM g.deck + (∑ s : Suit, Foundation.cardsM (g.foundations s))
            + (∑ k : Fin 7, pileM (g.piles k))
        rw [hPP]

/-! ## Reachable game states and card conservation -/

/-- Every reachable state's card pool is the canonical 52 and its zones
jointly hold exactly that pool. -/
theorem reachable_conservation {g : KlondikeSolitaireGame} (h : Reachable g) :
    (↑g.cards : Multiset Card) = ↑new_standard_deck
      ∧ g.allCards = ↑new_standard_deck := by
  induction h with
  | new_shuffle dc shuffle hperm =>
    constructor
    · exact Multiset.coe_eq_coe.mpr hperm
    · unfold KlondikeSolitaireGame.new_shuffle
      rw [allCards_reset]
      exact Multiset.coe_eq_coe.mpr hperm
  | reset hr ih =>
    exact ⟨ih.1, by rw [allCards_reset]; exact ih.1⟩
  | draw hr ih =>
    exact ⟨ih.1, by rw [allCards_draw]; exact ih.2⟩
  | move_cards src tgt hr ih =>
    exact ⟨by rw [move_cards_pool]; exact ih.1, by rw [allCards_move]; exact ih.2⟩

theorem move_to_error {p t : Pile} {e : KlondikeErr} (h : (p.move_to t).1 = .error e) :
    (p.move_to t).2.1 = p ∧ (p.move_to t).2.2 = t := by
  unfold Pile.move_to at h ⊢
  rcases hpos : position (fun c => (t.can_push c).isOk) p.visible_cards with _ | idx
  · exact ⟨rfl, rfl⟩
  · rw [hpos] at h
    dsimp only at h
    simp at h

/-- C1: every game state reachable from a freshly dealt game by draws and
moves holds, across the deck regions, the expanded foundations, and the
piles' hidden and visible regions, exactly the 52 canonical cards — no
duplicates, no omissions. -/
theorem C1_card_conservation (g : KlondikeSolitaireGame) (h : Reachable g) :
    g.allCards = ↑new_standard_deck ∧ g.allCards.card = 52 ∧ g.allCards.Nodup := by
  have hc := (reachable_conservation h).2
  refine ⟨hc, ?_, ?_⟩
  · rw [hc, Multiset.coe_card]
    rfl
  · rw [hc, Multiset.coe_nodup]
    decide

theorem C1_card_conservation_witness :
    (KlondikeSolitaireGame.new_shuffle 3 (fun l => l)).allCards = ↑new_standard_deck
      ∧ (KlondikeSolitaireGame.new_shuffle 3 (fun l => l)).allCards.card = 52
      ∧ (KlondikeSolitaireGame.new_shuffle 3 (fun l => l)).allCards.Nodup :=
  C1_card_conservation _ (Reachable.new_shuffle 3 (fun l => l) (List.Perm.refl _))

/-- C2: whenever `move_cards` (with in-range pile indices, enforced by
`Fin 7`) returns an error, the whole game — deck, foundations, and piles —
is unchanged. -/
theorem C2_move_atomicity (g : KlondikeSolitaireGame) (src : MoveSource) (tgt : MoveTarget)
    (e : KlondikeErr) (h : (g.move_cards src tgt).1 = .error e) :
    (g.move_cards src tgt).2 = g := by
  rcases src with _ | suit | i
  · rcases tgt with _ | j
    · -- Deck → Foundation
      simp only [KlondikeSolitaireGame.move_cards] at h ⊢
      rcases htop : g.deck.top with _ | c
      · rfl
      · rw [htop] at h
        dsimp only at h ⊢
        by_cases hnc : (g.foundations c.suit).next_card ≠ some c
        · rw [if_pos hnc]
        · rw [if_neg hnc] at h
          simp at h
    · -- Deck → Pile
      simp only [KlondikeSolitaireGame.move_cards] at h ⊢
      rcases htop : g.deck.top with _ | c
      · rfl
      · rw [htop] at h
        dsimp only at h ⊢
        rcases hpp : (g.piles j).push c with ⟨r, p⟩
        rcases r with e2 | u
        · rfl
        · rw [hpp] at h
          dsimp only at h
          simp at h
  · rcases tgt with _ | j
    · rfl
    · -- Foundation → Pile
      simp only [KlondikeSolitaireGame.move_cards] at h ⊢
      rcases htop : (g.foundations suit).top with _ | c
      · rfl
      · rw [htop] at h
        dsimp only at h ⊢
        rcases hpp : (g.piles j).push c with ⟨r, p⟩
        rcases r with e2 | u
        · rfl
        · rw [hpp] at h
          dsimp only at h
          simp at h
  · rcases tgt with _ | j
    · -- Pile → Foundation
      simp only [KlondikeSolitaireGame.move_cards] at h ⊢
      rcases htop : (g.piles i).top with _ | c
      · rfl
      · rw [htop] at h
        dsimp only at h ⊢
        by_cases hnc : (g.foundations c.suit).next_card ≠ some c
        · rw [if_pos hnc]
        · rw [if_neg hnc] at h
          simp at h
    · -- Pile → Pile
      simp only [KlondikeSolitaireGame.move_cards] at h ⊢
      by_cases hij : i = j
      · rw [if_pos hij] at h
        simp at h
      · rw [if_neg hij] at h ⊢
        have h1 : ((g.piles i).move_to (g.piles j)).1 = .error e := h
        obtain ⟨hs, ht⟩ := move_to_error h1
        show KlondikeSolitaireGame.mk g.cards g.foundations
          (Function.update (Function.update g.piles i ((g.piles i).move_to (g.piles j)).2.1) j
            ((g.piles i).move_to (g.piles j)).2.2) g.deck = g
        rw [hs, ht, Function.update_eq_self, Function.update_eq_self]

theorem C2_move_atomicity_witness :
    ((KlondikeSolitaireGame.new_shuffle 3 (fun l => l)).move_cards .deck .foundation).1
        = .error .invalidMove
      ∧ ((KlondikeSolitaireGame.new_shuffle 3 (fun l => l)).move_cards .deck .foundation).2
        = KlondikeSolitaireGame.new_shuffle 3 (fun l => l) :=
  ⟨rfl, C2_move_atomicity _ _ _ .invalidMove rfl⟩

/-- C10: `Foundation::push` on a non-empty, non-full foundation with cursor
at (valid) rank index `i` advances the cursor to `i+1` yet returns the rank-`i`
card — the top card from before the push, not the new top; on an empty
foundation it sets the cursor to the Ace and returns the Ace (the new top);
on a full foundation it returns `none` and changes nothing. -/
theorem C10_foundation_push (f : Foundation) :
    (∀ i, f.current_rank_index = some i → i < RANKS.length → i ≠ RANKS.length - 1 →
       (f.push).2.current_rank_index = some (i + 1)
         ∧ (f.push).1 = f.top
         ∧ (f.push).1 ≠ (f.push).2.top)
  ∧ (f.current_rank_index = none →
       (f.push).2.current_rank_index = some 0
         ∧ (f.push).1 = some (rankCard f.suit 0)
         ∧ (f.push).1 = (f.push).2.top)
  ∧ (f.current_rank_index = some (RANKS.length - 1) → f.push = (none, f)) := by
  obtain ⟨fs, fi⟩ := f
  refine ⟨?_, ?_, ?_⟩
  · rintro i rfl hlt hne
    refine ⟨?_, ?_, ?_⟩
    · simp [Foundation.push, hne]
    · simp [Foundation.push, Foundation.top, hne]
    · simp only [Foundation.push, hne, if_false]
      intro heq
      simp only [Foundation.top, Option.some_inj] at heq
      have := congrArg Card.rankIdx heq
      rw [rankCard_rankIdx (by simpa [RANKS] using hlt),
        rankCard_rankIdx (by have : RANKS.length = 13 := rfl; omega)] at this
      omega
  · rintro rfl
    exact ⟨rfl, rfl, rfl⟩
  · rintro rfl
    simp [Foundation.push]

theorem C10_foundation_push_witness :
    ((Foundation.mk .hearts (some 4)).push).2.current_rank_index = some 5
      ∧ ((Foundation.mk .hearts (some 4)).push).1 = (Foundation.mk .hearts (some 4)).top
      ∧ ((Foundation.mk .hearts (some 4)).push).1 ≠ ((Foundation.mk .hearts (some 4)).push).2.top
      ∧ ((Foundation.mk .clubs none).push).2.current_rank_index = some 0
      ∧ ((Foundation.mk .spades (some 12)).push) = (none, Foundation.mk .spades (some 12)) := by
  obtain ⟨h1, h2, h3⟩ :=
    (C10_foundation_push (Foundation.mk .hearts (some 4))).1 4 rfl (by decide) (by decide)
  refine ⟨h1, h2, h3, ?_, ?_⟩
  · exact ((C10_foundation_push (Foundation.mk .clubs none)).2.1 rfl).1
  · exact (C10_foundation_push (Foundation.mk .spades (some 12))).2.2 (by decide)

/-- C8: pushing onto an empty pile succeeds exactly for Kings (any color)
and fails with `InvalidCard` otherwise; a pile whose visible top card is an
Ace accepts nothing (`next_card` is `none`) and every push fails with
`Capacity`. -/
theorem C8_empty_and_ace_pile (c : Card) :
    ((Pile.new.push c).1 = .ok () ↔ c.rank = .king)
  ∧ (c.rank ≠ .king → (Pile.new.push c).1 = .error .invalidCard)
  ∧ (∀ p : Pile, ∀ a : Card, p.top = some a → a.rank = .ace →
       p.next_card = none ∧ (p.push c).1 = .error .capacity) := by
  have hcan : Pile.new.can_push c
      = if c.rank = Rank.king then .ok () else .error .invalidCard := by
    unfold Pile.can_push Pile.next_card Pile.new
    dsimp only
    by_cases hk : c.rank = Rank.king
    · simp [hk]
    · simp [hk]
  refine ⟨?_, ?_, ?_⟩
  · show (Pile.new.can_push c = .ok ()) ↔ _
    rw [hcan]
    by_cases hk : c.rank = .king <;> simp [hk]
  · intro hk
    show Pile.new.can_push c = _
    rw [hcan, if_neg hk]
  · intro p a htop hace
    have hidx : a.rankIdx = 0 := by
      have hr := rank_index_card a
      rw [hace] at hr
      have h0 : rank_index Rank.ace = some 0 := by decide
      rw [h0] at hr
      exact (Option.some_inj.mp hr).symm
    unfold Pile.top at htop
    have hnc : p.next_card = none := by
      unfold Pile.next_card
      rw [htop]
      dsimp only
      rw [hidx]
    refine ⟨hnc, ?_⟩
    show p.can_push c = _
    unfold Pile.can_push
    rw [hnc]

theorem C8_empty_and_ace_pile_witness :
    ((Pile.new.push (⟨.spades, .king, by decide⟩ : Card)).1 = .ok ())
      ∧ ((Pile.new.push (⟨.hearts, .number 5, by decide⟩ : Card)).1 = .error .invalidCard)
      ∧ (Pile.mk [⟨.hearts, .ace, by decide⟩] []).next_card = none
      ∧ ((Pile.mk [⟨.hearts, .ace, by decide⟩] []).push (⟨.spades, .king, by decide⟩ : Card)).1
          = .error .capacity := by
  refine ⟨?_, ?_, ?_, ?_⟩
  · exact (C8_empty_and_ace_pile (⟨.spades, .king, by decide⟩ : Card)).1.mpr rfl
  · exact (C8_empty_and_ace_pile (⟨.hearts, .number 5, by decide⟩ : Card)).2.1 (by decide)
  · exact ((C8_empty_and_ace_pile (⟨.spades, .king, by decide⟩ : Card)).2.2
      (Pile.mk [⟨.hearts, .ace, by decide⟩] []) (⟨.hearts, .ace, by decide⟩ : Card) rfl rfl).1
  · exact ((C8_empty_and_ace_pile (⟨.spades, .king, by decide⟩ : Card)).2.2
      (Pile.mk [⟨.hearts, .ace, by decide⟩] []) (⟨.hearts, .ace, by decide⟩ : Card) rfl rfl).2

/-- C9 counterexample: a freshly dealt game (identity shuffle) after one
draw has 5♣ on top of the deck; pile 1 (visible top 3♦) rejects it with
`InvalidCard`, yet `move_cards(Deck, Pile(1))` returns `InvalidMove`, not
`InvalidCard`. -/
theorem C9_counterexample :
    ((KlondikeSolitaireGame.new_shuffle 3 (fun l => l)).draw).deck.top
        = some (rankCard .clubs 4)
      ∧ (((KlondikeSolitaireGame.new_shuffle 3 (fun l => l)).draw).piles 1).can_push
          (rankCard .clubs 4) = .error .invalidCard
      ∧ (((KlondikeSolitaireGame.new_shuffle 3 (fun l => l)).draw).move_cards .deck
          (.pile 1)).1 = .error .invalidMove
      ∧ KlondikeErr.invalidMove ≠ KlondikeErr.invalidCard := by
  refine ⟨by decide, rfl, rfl, by decide⟩

/-- C9 (amended): when the deck's visible top card fails a pile's color/rank
acceptance rule (`Pile::can_push` returns `InvalidCard`), `move_cards(Deck,
Pile(i))` fails — but the error it returns is `InvalidMove`: the Deck→Pile
arm coerces every pile error to `InvalidMove`. -/
theorem C9_deck_to_pile_error (g : KlondikeSolitaireGame) (i : Fin 7) (c : Card)
    (h1 : g.deck.top = some c) (h2 : (g.piles i).can_push c = .error .invalidCard) :
    g.move_cards .deck (.pile i) = (.error .invalidMove, g) := by
  simp only [KlondikeSolitaireGame.move_cards]
  rw [h1]
  dsimp only
  have hpp : (g.piles i).push c = (.error .invalidCard, g.piles i) := by
    unfold Pile.push
    rw [h2]
    rfl
  rw [hpp]

theorem C9_deck_to_pile_error_witness :
    ((KlondikeSolitaireGame.new_shuffle 3 (fun l => l)).draw).move_cards .deck (.pile 1)
      = (.error .invalidMove, (KlondikeSolitaireGame.new_shuffle 3 (fun l => l)).draw) :=
  C9_deck_to_pile_error _ 1 (rankCard .clubs 4) (by decide) rfl

/-- C7: for reachable states, `is_clear` is true exactly when all four
foundations are full, and whenever it is true every pile and the deck are
empty (so the defensive `debug_assert!` re-verification can never fail). -/
theorem C7_is_clear (g : KlondikeSolitaireGame) (h : Reachable g) :
    (g.is_clear = true ↔ ∀ s : Suit, (g.foundations s).is_full = true)
  ∧ (g.is_clear = true →
      (∀ i : Fin 7, (g.piles i).visible_cards = [] ∧ (g.piles i).hidden_cards = [])
        ∧ g.deck.cards = []
        ∧ (∀ i : Fin 7, (g.piles i).is_empty = true) ∧ g.deck.is_empty = true) := by
  have hiff : g.is_clear = true ↔ ∀ s : Suit, (g.foundations s).is_full = true := by
    unfold KlondikeSolitaireGame.is_clear FOUNDATION_SUITS
    rw [List.all_eq_true]
    constructor
    · intro ha s
      cases s <;> exact ha _ (by simp)
    · intro ha x _
      exact ha x
  refine ⟨hiff, fun hc => ?_⟩
  have hfull : ∀ s : Suit, (g.foundations s).is_full = true := hiff.mp hc
  have hcons := (reachable_conservation h).2
  have hcard : g.allCards.card = 52 := by
    rw [hcons, Multiset.coe_card]
    rfl
  have hfcard : ∀ s : Suit, ((g.foundations s).cardsM).card = 13 := by
    intro s
    have hf := hfull s
    simp only [Foundation.is_full, beq_iff_eq] at hf
    unfold Foundation.cardsM Foundation.cards
    rw [hf]
    simp [RANKS]
  have hsumf : (∑ s : Suit, (g.foundations s).cardsM).card = 52 := by
    rw [map_sum Multiset.card (fun s => (g.foundations s).cardsM) Finset.univ]
    simp [hfcard]
    rfl
  have hz : (deckM g.deck).card + (∑ i : Fin 7, pileM (g.piles i)).card = 0 := by
    have hsplit : g.allCards.card
        = (deckM g.deck).card + (∑ s : Suit, (g.foundations s).cardsM).card
          + (∑ i : Fin 7, pileM (g.piles i)).card := by
      unfold KlondikeSolitaireGame.allCards
      simp
    rw [hcard, hsumf] at hsplit
    omega
  have hdz : deckM g.deck = 0 := by
    have := Multiset.card_eq_zero.mp (by omega : (deckM g.deck).card = 0)
    exact this
  have hpz : (∑ i : Fin 7, pileM (g.piles i)) = 0 :=
    Multiset.card_eq_zero.mp (by omega)
  have hdeck : g.deck.cards = [] := by
    rw [deckM_eq] at hdz
    exact (Multiset.coe_eq_zero _).mp hdz
  have hpile : ∀ i : Fin 7, (g.piles i).visible_cards = [] ∧ (g.piles i).hidden_cards = [] := by
    intro i
    have hi : pileM (g.piles i) = 0 :=
      (Finset.sum_eq_zero_iff).mp hpz i (Finset.mem_univ i)
    unfold pileM at hi
    constructor
    · exact (Multiset.coe_eq_zero _).mp (by
        have := add_eq_zero_iff_of_nonneg (by positivity) (by positivity) |>.mp hi
        exact this.2)
    · exact (Multiset.coe_eq_zero _).mp (by
        have := add_eq_zero_iff_of_nonneg (by positivity) (by positivity) |>.mp hi
        exact this.1)
  refine ⟨hpile, hdeck, fun i => ?_, ?_⟩
  · unfold Pile.is_empty
    rw [(hpile i).1]
    rfl
  · unfold Deck.is_empty
    rw [hdeck]
    rfl

theorem C7_is_clear_witness :
    ((KlondikeSolitaireGame.new_shuffle 3 (fun l => l)).is_clear = true
        ↔ ∀ s : Suit,
            ((KlondikeSolitaireGame.new_shuffle 3 (fun l => l)).foundations s).is_full = true)
      ∧ ((KlondikeSolitaireGame.new_shuffle 3 (fun l => l)).is_clear = true →
          (∀ i : Fin 7,
              ((KlondikeSolitaireGame.new_shuffle 3 (fun l => l)).piles i).visible_cards = []
                ∧ ((KlondikeSolitaireGame.new_shuffle 3 (fun l => l)).piles i).hidden_cards = [])
            ∧ (KlondikeSolitaireGame.new_shuffle 3 (fun l => l)).deck.cards = []
            ∧ (∀ i : Fin 7,
                ((KlondikeSolitaireGame.new_shuffle 3 (fun l => l)).piles i).is_empty = true)
            ∧ (KlondikeSolitaireGame.new_shuffle 3 (fun l => l)).deck.is_empty = true) :=
  C7_is_clear _ (Reachable.new_shuffle 3 (fun l => l) (List.Perm.refl _))

/-! ## Pile ordering invariant (C3) -/

theorem chain'_take {α : Type _} {R : α → α → Prop} {l : List α}
    (h : List.Chain' R l) (n : Nat) : List.Chain' R (l.take n) := by
  have h2 : List.Chain' R (l.take n ++ l.drop n) := by
    rw [List.take_append_drop]
    exact h
  exact (List.chain'_append.mp h2).1

theorem chain'_drop {α : Type _} {R : α → α → Prop} {l : List α}
    (h : List.Chain' R l) (n : Nat) : List.Chain' R (l.drop n) := by
  have h2 : List.Chain' R (l.take n ++ l.drop n) := by
    rw [List.take_append_drop]
    exact h
  exact (List.chain'_append.mp h2).2.1

theorem chain'_dropLast {α : Type _} {R : α → α → Prop} {l : List α}
    (h : List.Chain' R l) : List.Chain' R l.dropLast := by
  rw [List.dropLast_eq_take]
  exact chain'_take h _

theorem card_rank_getD_rankIdx {c : Card} {i : Nat} (hr : c.rank = RANKS.getD i .ace)
    (hi : i < 13) : c.rankIdx = i := by
  have h1 := rank_index_card c
  rw [hr, rank_index_RANKS_getD i hi] at h1
  exact (Option.some_inj.mp h1).symm

/-- When a pile accepts a card, that card stacks on the pile's top card. -/
theorem can_push_ok_stacksOn {t : Pile} {c a : Card}
    (hlast : t.visible_cards.getLast? = some a) (h : (t.can_push c).isOk = true) :
    stacksOn a c := by
  unfold Pile.can_push Pile.next_card at h
  rw [hlast] at h
  dsimp only at h
  match hr : a.rankIdx with
  | 0 =>
    rw [hr] at h
    dsimp only at h
    exact absurd h (by decide)
  | i + 1 =>
    rw [hr] at h
    dsimp only at h
    by_cases hb : (c.color == a.color.other && c.rank == RANKS.getD i .ace) = true
    · simp only [Bool.and_eq_true, beq_iff_eq] at hb
      obtain ⟨hcol, hrank⟩ := hb
      have hi13 : i < 13 := by
        have := rankIdx_lt a
        omega
      exact ⟨hcol, by rw [card_rank_getD_rankIdx hrank hi13, hr]⟩
    · rw [if_neg hb] at h
      exact absurd h (by decide)

theorem valid_push {p : Pile} (hp : ValidPile p) (c : Card) :
    ValidPile (p.push c).2 := by
  unfold Pile.push
  by_cases hok : (p.can_push c).isOk = true
  · dsimp only
    rw [if_pos hok]
    unfold ValidPile
    rw [List.chain'_append]
    refine ⟨hp, List.chain'_singleton c, ?_⟩
    intro x hx y hy
    simp only [List.head?_cons, Option.mem_def, Option.some_inj] at hy
    subst hy
    exact can_push_ok_stacksOn hx hok
  · dsimp only
    rw [if_neg hok]
    exact hp

theorem valid_check_visible {p : Pile} (hp : ValidPile p) :
    ValidPile p.check_visible := by
  unfold Pile.check_visible
  by_cases hv : p.visible_cards.isEmpty
  · rw [if_pos hv]
    match hh : p.hidden_cards.getLast? with
    | some x => exact List.chain'_singleton x
    | none => exact hp
  · rw [if_neg hv]
    exact hp

theorem valid_pop {p : Pile} (hp : ValidPile p) : ValidPile (p.pop).2 := by
  unfold Pile.pop
  rcases hv : p.visible_cards.getLast? with _ | c
  · exact hp
  · apply valid_check_visible
    exact chain'_dropLast hp

theorem valid_move_to {p t : Pile} (hp : ValidPile p) (ht : ValidPile t) :
    ValidPile ((p.move_to t).2.1) ∧ ValidPile ((p.move_to t).2.2) := by
  unfold Pile.move_to
  rcases hpos : position (fun c => (t.can_push c).isOk) p.visible_cards with _ | idx
  · exact ⟨hp, ht⟩
  · constructor
    · apply valid_check_visible
      exact chain'_take hp idx
    · unfold ValidPile
      rw [List.chain'_append]
      refine ⟨ht, chain'_drop hp idx, ?_⟩
      intro x hx y hy
      obtain ⟨hlt, hpk, _⟩ := position_spec hpos
      rw [List.head?_drop] at hy
      have hget : p.visible_cards[idx]? = some (p.visible_cards.get ⟨idx, hlt⟩) := by
        simp
      rw [hget] at hy
      simp only [Option.mem_def, Option.some_inj] at hy
      subst hy
      exact can_push_ok_stacksOn hx hpk

/-- C3: if every pile's visible sequence is initially a valid descending,
color-alternating run, it stays one after any sequence of `push`, `pop`
and `move_to` operations. -/
theorem C3_pile_ordering {n : Nat} (P Q : Fin n → Pile)
    (hreach : Relation.ReflTransGen PileStep P Q)
    (hvalid : ∀ i, ValidPile (P i)) : ∀ i, ValidPile (Q i) := by
  induction hreach with
  | refl => exact hvalid
  | tail hAB hstep ih =>
    cases hstep with
    | push i c =>
      intro k
      rcases eq_or_ne k i with rfl | hk
      · rw [Function.update_same]
        exact valid_push (ih k) c
      · rw [Function.update_noteq hk]
        exact ih k
    | pop i =>
      intro k
      rcases eq_or_ne k i with rfl | hk
      · rw [Function.update_same]
        exact valid_pop (ih k)
      · rw [Function.update_noteq hk]
        exact ih k
    | move_to i j hij =>
      intro k
      rcases eq_or_ne k j with rfl | hkj
      · rw [Function.update_same]
        exact (valid_move_to (ih i) (ih k)).2
      · rw [Function.update_noteq hkj]
        rcases eq_or_ne k i with rfl | hki
        · rw [Function.update_same]
          exact (valid_move_to (ih k) (ih j)).1
        · rw [Function.update_noteq hki]
          exact ih k

theorem C3_pile_ordering_witness :
    ValidPile
      (Function.update (fun _ : Fin 2 => Pile.new) 0
        ((Pile.new.push (⟨.spades, .king, by decide⟩ : Card)).2) 0)
    ∧ ValidPile
      (Function.update (fun _ : Fin 2 => Pile.new) 0
        ((Pile.new.push (⟨.spades, .king, by decide⟩ : Card)).2) 1) :=
  ⟨C3_pile_ordering _ _
    (Relation.ReflTransGen.single (PileStep.push (fun _ : Fin 2 => Pile.new) 0
      (⟨.spades, .king, by decide⟩ : Card)))
    (fun _ => List.chain'_nil) 0,
   C3_pile_ordering _ _
    (Relation.ReflTransGen.single (PileStep.push (fun _ : Fin 2 => Pile.new) 0
      (⟨.spades, .king, by decide⟩ : Card)))
    (fun _ => List.chain'_nil) 1⟩

/-! ## `Pile::move_to` functional specification (C4) -/

theorem position_none_of {p : α → Bool} {l : List α}
    (h : ∀ a ∈ l, p a = false) : position p l = none := by
  induction l with
  | nil => rfl
  | cons a as ih =>
    unfold position
    rw [h a (by simp), ih (fun x hx => h x (by simp [hx]))]
    rfl

theorem position_eq_some_of {p : α → Bool} {l : List α} {k : Nat} (hk : k < l.length)
    (hpk : p (l.get ⟨k, hk⟩) = true)
    (hmin : ∀ j (hj : j < k), p (l.get ⟨j, Nat.lt_trans hj hk⟩) = false) :
    position p l = some k := by
  induction l generalizing k with
  | nil => simp at hk
  | cons a as ih =>
    match k with
    | 0 =>
      simp only [List.get] at hpk
      unfold position
      rw [hpk]
      rfl
    | k + 1 =>
      have ha : p a = false := hmin 0 (Nat.succ_pos k)
      unfold position
      rw [ha]
      simp only [Bool.false_eq_true, if_false]
      have hk2 : k < as.length := by
        simp at hk
        omega
      rw [ih hk2 (by simpa using hpk)
        (fun j hj => by simpa using hmin (j + 1) (by omega))]
      rfl

/-- C4: `move_to` finds the smallest visible index the target accepts and
moves that whole suffix, in order, onto the target's visible region; it
fails with `InvalidMove` when no card qualifies (in particular on an empty
visible region); and when the move empties the source's visible region, a
non-empty hidden region reveals its top card. -/
theorem C4_move_to_spec (s t : Pile) :
    ((∀ c ∈ s.visible_cards, (t.can_push c).isOk = false) →
       s.move_to t = (.error .invalidMove, s, t))
  ∧ (∀ k (hk : k < s.visible_cards.length),
       (t.can_push (s.visible_cards.get ⟨k, hk⟩)).isOk = true →
       (∀ j (hj : j < k), (t.can_push (s.visible_cards.get ⟨j, Nat.lt_trans hj hk⟩)).isOk
          = false) →
       (s.move_to t).1 = .ok ()
         ∧ (s.move_to t).2.2.visible_cards = t.visible_cards ++ s.visible_cards.drop k
         ∧ (s.move_to t).2.2.hidden_cards = t.hidden_cards
         ∧ (0 < k → (s.move_to t).2.1 = ⟨s.visible_cards.take k, s.hidden_cards⟩)
         ∧ (k = 0 → s.hidden_cards = [] → (s.move_to t).2.1 = ⟨[], []⟩)
         ∧ (k = 0 → ∀ hcard, s.hidden_cards.getLast? = some hcard →
             (s.move_to t).2.1 = ⟨[hcard], s.hidden_cards.dropLast⟩)) := by
  constructor
  · intro hnone
    have hpos : position (fun c => (t.can_push c).isOk) s.visible_cards = none :=
      position_none_of hnone
    unfold Pile.move_to
    rw [hpos]
  · intro k hk hacc hmin
    have hpos : position (fun c => (t.can_push c).isOk) s.visible_cards = some k :=
      position_eq_some_of hk hacc hmin
    unfold Pile.move_to
    rw [hpos]
    refine ⟨rfl, rfl, rfl, ?_, ?_, ?_⟩
    · intro hkpos
      show Pile.check_visible ⟨s.visible_cards.take k, s.hidden_cards⟩ = _
      unfold Pile.check_visible
      have hne : (s.visible_cards.take k).isEmpty = false := by
        rw [List.isEmpty_eq_false_iff_exists_mem]
        have : 0 < (s.visible_cards.take k).length := by
          rw [List.length_take]
          omega
        exact ⟨_, List.get_mem _ 0 this⟩
      rw [hne]
      rfl
    · rintro rfl hhid
      show Pile.check_visible ⟨s.visible_cards.take 0, s.hidden_cards⟩ = _
      rw [hhid]
      rfl
    · rintro rfl hcard hlast
      show Pile.check_visible ⟨s.visible_cards.take 0, s.hidden_cards⟩ = _
      unfold Pile.check_visible
      dsimp only
      rw [hlast]
      rfl

theorem C4_move_to_spec_witness :
    ((Pile.mk [rankCard .hearts 8, rankCard .spades 7, rankCard .diamonds 6, rankCard .clubs 5]
        [rankCard .diamonds 2]).move_to (Pile.mk [rankCard .clubs 7] [])).1 = .ok ()
    ∧ ((Pile.mk [rankCard .hearts 8, rankCard .spades 7, rankCard .diamonds 6, rankCard .clubs 5]
        [rankCard .diamonds 2]).move_to (Pile.mk [rankCard .clubs 7] [])).2.2.visible_cards
      = [rankCard .clubs 7] ++ [rankCard .hearts 8, rankCard .spades 7, rankCard .diamonds 6,
          rankCard .clubs 5].drop 2
    ∧ ((Pile.mk [rankCard .hearts 8, rankCard .spades 7, rankCard .diamonds 6, rankCard .clubs 5]
        [rankCard .diamonds 2]).move_to (Pile.mk [rankCard .clubs 7] [])).2.1
      = ⟨[rankCard .hearts 8, rankCard .spades 7, rankCard .diamonds 6,
          rankCard .clubs 5].take 2, [rankCard .diamonds 2]⟩ := by
  have h := (C4_move_to_spec
    (Pile.mk [rankCard .hearts 8, rankCard .spades 7, rankCard .diamonds 6, rankCard .clubs 5]
      [rankCard .diamonds 2])
    (Pile.mk [rankCard .clubs 7] [])).2 2 (by decide) (by decide) (by decide)
  exact ⟨h.1, h.2.1, h.2.2.2.1 (by decide)⟩

/-! ## Deck window invariants (C5) and the draw cycle (C6) -/

/-- The window stays inside the backing sequence and never exceeds
`draw_count`. -/
theorem deckReach_inv {d : Deck} (h : DeckReach d) :
    d.visible_count ≤ d.draw_count
      ∧ d.visible_index + d.visible_count ≤ d.cards.length := by
  induction h with
  | new dc h1 h2 =>
    exact ⟨Nat.zero_le _, by simp [Deck.new]⟩
  | fromParts dc w v r h1 h2 h3 h4 h5 =>
    refine ⟨h3, ?_⟩
    simp [Deck.fromParts]
  | reset d cards hlen hd ih =>
    exact ⟨Nat.zero_le _, by simp [Deck.reset]⟩
  | draw d hd ih =>
    unfold Deck.draw
    by_cases hge : d.visible_index + d.visible_count ≥ d.cards.length
    · rw [if_pos hge]
      exact ⟨Nat.zero_le _, Nat.zero_le _⟩
    · rw [if_neg hge]
      refine ⟨Nat.min_le_left _ _, ?_⟩
      show d.visible_index + d.visible_count
          + min d.draw_count (d.cards.length - (d.visible_index + d.visible_count))
        ≤ d.cards.length
      omega
  | pop d hd ih =>
    unfold Deck.pop
    by_cases hz : d.visible_count = 0
    · rw [if_pos hz]
      exact ih
    · rw [if_neg hz]
      have hlen : (d.cards.eraseIdx (d.visible_index + d.visible_count - 1)).length
          = d.cards.length - 1 := by
        rw [List.length_eraseIdx]
        have : d.visible_index + d.visible_count - 1 < d.cards.length := by omega
        simp [this]
      refine ⟨?_, ?_⟩
      · show d.visible_count - 1 ≤ d.draw_count
        omega
      · show d.visible_index + (d.visible_count - 1)
          ≤ (d.cards.eraseIdx (d.visible_index + d.visible_count - 1)).length
        rw [hlen]
        omega

/-- C5: for every reachable deck, `waste ++ visible ++ remaining` is exactly
the backing sequence (no gaps, no overlaps — the window never leaves the
sequence), and `visible_count ≤ draw_count`. -/
theorem C5_deck_window_partition (d : Deck) (h : DeckReach d) :
    d.waste_cards ++ d.visible_cards ++ d.remaining_cards = d.cards
      ∧ d.visible_index + d.visible_count ≤ d.cards.length
      ∧ d.visible_count ≤ d.draw_count :=
  ⟨deck_partition d, (deckReach_inv h).2, (deckReach_inv h).1⟩

theorem C5_deck_window_partition_witness :
    ((Deck.new 3).draw).waste_cards ++ ((Deck.new 3).draw).visible_cards
        ++ ((Deck.new 3).draw).remaining_cards = ((Deck.new 3).draw).cards
      ∧ ((Deck.new 3).draw).visible_index + ((Deck.new 3).draw).visible_count
        ≤ ((Deck.new 3).draw).cards.length
      ∧ ((Deck.new 3).draw).visible_count ≤ ((Deck.new 3).draw).draw_count :=
  C5_deck_window_partition _ (DeckReach.draw _ (DeckReach.new 3 (by decide) (by decide)))

/-- The deck state after `j` draws from the freshly-reset state, as long as
the window has not yet wrapped. -/
theorem draw_iterate_state (cards : List Card) (dc : Nat) (h1 : 0 < dc)
    (h2 : cards ≠ []) :
    ∀ j, 1 ≤ j → (j - 1) * dc < cards.length →
      Deck.draw^[j] (Deck.mk cards dc 0 0)
        = Deck.mk cards dc ((j - 1) * dc) (min dc (cards.length - (j - 1) * dc)) := by
  intro j
  induction j with
  | zero => omega
  | succ j ih =>
    intro _ hlt
    rcases Nat.eq_zero_or_pos j with rfl | hj
    · rw [Function.iterate_one]
      unfold Deck.draw
      have hlen : ¬ 0 + 0 ≥ cards.length := by
        have := List.length_pos.mpr h2
        omega
      rw [if_neg hlen]
      simp
    · have hsj : (j + 1 - 1) * dc = j * dc := by simp
      rw [hsj] at hlt
      have hjlt : (j - 1) * dc < cards.length := by
        have hle : (j - 1) * dc ≤ j * dc := Nat.mul_le_mul_right dc (by omega)
        omega
      have ihj := ih hj hjlt
      rw [Function.iterate_succ_apply', ihj]
      have e1 : (j - 1) * dc + dc = j * dc := by
        rcases Nat.exists_eq_add_of_le hj with ⟨jj, rfl⟩
        simp [Nat.succ_mul]
        ring
      have e2 : min dc (cards.length - (j - 1) * dc) = dc := by omega
      unfold Deck.draw
      dsimp only
      rw [e2]
      rw [if_neg (by omega)]
      rw [e1, hsj]

/-- C6: from a freshly-reset non-empty deck, each draw either wraps to an
empty window (when the new window start passes the end) or shows
`min(draw_count, cards-remaining)` cards; exactly
`⌈len/draw_count⌉ + 1 = (len + draw_count - 1)/draw_count + 1` consecutive
draws — and no fewer — return the deck to the zero-visible start state. -/
theorem C6_draw_cycle (cards : List Card) (dc : Nat) (h1 : 0 < dc) (h2 : cards ≠ []) :
    (∀ e : Deck,
      (e.cards.length ≤ e.visible_index + e.visible_count →
          e.draw = { e with visible_index := 0, visible_count := 0 })
        ∧ (e.visible_index + e.visible_count < e.cards.length →
          e.draw = { e with
            visible_index := e.visible_index + e.visible_count,
            visible_count := min e.draw_count
              (e.cards.length - (e.visible_index + e.visible_count)) }))
  ∧ Deck.draw^[(cards.length + dc - 1) / dc + 1] (Deck.mk cards dc 0 0)
      = Deck.mk cards dc 0 0
  ∧ (∀ m, 0 < m → m < (cards.length + dc - 1) / dc + 1 →
      Deck.draw^[m] (Deck.mk cards dc 0 0) ≠ Deck.mk cards dc 0 0) := by
  have hlen0 : 0 < cards.length := List.length_pos.mpr h2
  set q := (cards.length + dc - 1) / dc with hq
  have hq1 : 1 ≤ q := by
    rw [hq, Nat.le_div_iff_mul_le h1]
    omega
  have hqd : q * dc ≤ cards.length + dc - 1 := by
    rw [hq]
    exact Nat.div_mul_le_self _ _
  have hub : cards.length ≤ q * dc := by
    by_contra hc
    have hB : (q + 1) * dc ≤ cards.length + dc - 1 := by
      have e : (q + 1) * dc = q * dc + dc := Nat.succ_mul q dc
      omega
    have hC : q + 1 ≤ q := by
      rw [hq]
      exact (Nat.le_div_iff_mul_le h1).mpr hB
    omega
  have e1 : (q - 1) * dc + dc = q * dc := by
    have e : q = (q - 1) + 1 := by omega
    calc (q - 1) * dc + dc = ((q - 1) + 1) * dc := (Nat.succ_mul _ _).symm
      _ = q * dc := by rw [← e]
  have hlb : (q - 1) * dc < cards.length := by omega
  refine ⟨?_, ?_, ?_⟩
  · intro e
    constructor
    · intro hge
      unfold Deck.draw
      rw [if_pos (by omega)]
    · intro hlt
      unfold Deck.draw
      rw [if_neg (by omega)]
  · rw [Function.iterate_succ_apply',
      draw_iterate_state cards dc h1 h2 q hq1 hlb]
    have e2 : min dc (cards.length - (q - 1) * dc) = cards.length - (q - 1) * dc := by
      omega
    unfold Deck.draw
    dsimp only
    rw [e2]
    rw [if_pos (by omega)]
  · intro m hm0 hmq
    have hmlt : (m - 1) * dc < cards.length := by
      have hle : (m - 1) * dc ≤ (q - 1) * dc := Nat.mul_le_mul_right dc (by omega)
      omega
    rw [draw_iterate_state cards dc h1 h2 m hm0 hmlt]
    intro heq
    have hvc := congrArg Deck.visible_count heq
    simp only at hvc
    omega

theorem C6_draw_cycle_witness :
    (Deck.mk (new_standard_deck.take 7) 3 0 0).draw
      = { Deck.mk (new_standard_deck.take 7) 3 0 0 with
          visible_index := 0 + 0,
          visible_count := min 3 ((new_standard_deck.take 7).length - (0 + 0)) }
    ∧ Deck.draw^[((new_standard_deck.take 7).length + 3 - 1) / 3 + 1]
        (Deck.mk (new_standard_deck.take 7) 3 0 0)
      = Deck.mk (new_standard_deck.take 7) 3 0 0
    ∧ Deck.draw^[2] (Deck.mk (new_standard_deck.take 7) 3 0 0)
      ≠ Deck.mk (new_standard_deck.take 7) 3 0 0 :=
  ⟨((C6_draw_cycle (new_standard_deck.take 7) 3 (by decide) (by decide)).1
      (Deck.mk (new_standard_deck.take 7) 3 0 0)).2 (by decide),
   (C6_draw_cycle (new_standard_deck.take 7) 3 (by decide) (by decide)).2.1,
   (C6_draw_cycle (new_standard_deck.take 7) 3 (by decide) (by decide)).2.2 2
     (by decide) (by decide)⟩

end Cardsim
